import Mathlib

/-!
Shallow embedding of `src/folder_analyzer.py` from SynologyDuplicateFileAnalyser.

Python dicts are modelled as insertion-ordered association lists, Python sets of
strings as duplicate-free lists compared by membership, and the `while True`
merge loop of `compact_nested_folders` as a fuel-indexed loop whose fuel
(`length + 1`) is proved sufficient (each merge strictly shrinks the list).
-/

/-- `DuplicateFile` dataclass: one row of the duplicate report. -/
structure DuplicateFile where
  group_id : String
  folder : String
  path : String
  size : Nat
deriving DecidableEq, Repr

/-- `FolderGroup` dataclass: a group of folders containing duplicate files.
`folders` models the Python `Set[str]` as a duplicate-free list; `shared_files`
models the `Dict[str, List[DuplicateFile]]` as an insertion-ordered association
list. -/
structure FolderGroup where
  folders : List String
  shared_files : List (String × List DuplicateFile)
  total_shared_size : Nat
  wasted_space : Nat
deriving DecidableEq, Repr

/-- `defaultdict(list)` update `acc[k].append(f)`: extend the entry for `k`
if present, otherwise append a fresh entry at the end (dict insertion order). -/
def appendAt (acc : List (String × List DuplicateFile)) (k : String)
    (f : DuplicateFile) : List (String × List DuplicateFile) :=
  match acc with
  | [] => [(k, [f])]
  | (k1, v) :: rest =>
    if k1 = k then (k1, v ++ [f]) :: rest else (k1, v) :: appendAt rest k f

/-- First loop of `analyze_folder_groups`: group files by their duplicate
group ID (`groups_by_id`). -/
def groupsById (files : List DuplicateFile) : List (String × List DuplicateFile) :=
  files.foldl (fun acc f => appendAt acc f.group_id f) []

/-- The distinct elements of a list, first occurrence kept: models building a
Python `set` from the folders of a cluster (only membership is ever observed). -/
def firstDedup : List String → List String
  | [] => []
  | x :: xs => x :: (firstDedup xs).filter (fun y => decide (y ≠ x))

/-- Equality of two folder lists viewed as sets: models `frozenset` equality,
the key comparison of the `folder_relationships` dict. -/
def setEq (a b : List String) : Bool :=
  a.all (fun x => decide (x ∈ b)) && b.all (fun x => decide (x ∈ a))

/-- Dict update `merged[k].extend(v)` / `merged[k] = v`: extend the entry for
`k` when present, else append a new entry (used both when the analyzer files a
cluster under its folder-set key and when `compact_nested_folders` merges
`shared_files` dicts). -/
def extendEntry (acc : List (String × List DuplicateFile)) (k : String)
    (v : List DuplicateFile) : List (String × List DuplicateFile) :=
  match acc with
  | [] => [(k, v)]
  | (k1, v1) :: rest =>
    if k1 = k then (k1, v1 ++ v) :: rest else (k1, v1) :: extendEntry rest k v

/-- `folder_relationships[folder_set][group_id].append(file)` for a whole
cluster at once: find the entry whose key is set-equal to `key` and file the
cluster under `gid` there, else append a fresh outer entry. -/
def addRel (acc : List (List String × List (String × List DuplicateFile)))
    (key : List String) (gid : String) (v : List DuplicateFile) :
    List (List String × List (String × List DuplicateFile)) :=
  match acc with
  | [] => [(key, [(gid, v)])]
  | (k, entries) :: rest =>
    if setEq k key then (k, extendEntry entries gid v) :: rest
    else (k, entries) :: addRel rest key gid v

/-- The distinct folders spanned by a cluster: `{file.folder for file in
group_files}`. -/
def clusterFolders (v : List DuplicateFile) : List String :=
  firstDedup (v.map (fun f => f.folder))

/-- One iteration of the `folder_relationships` loop: clusters spanning more
than one distinct folder are filed under their folder set, others are
skipped. -/
def relStep (acc : List (List String × List (String × List DuplicateFile)))
    (e : String × List DuplicateFile) :
    List (List String × List (String × List DuplicateFile)) :=
  if 1 < (clusterFolders e.2).length then addRel acc (clusterFolders e.2) e.1 e.2
  else acc

/-- Second loop of `analyze_folder_groups`: build `folder_relationships`,
keyed by the frozenset of folders of each cluster that spans more than one
distinct folder. -/
def folderRel (files : List DuplicateFile) :
    List (List String × List (String × List DuplicateFile)) :=
  (groupsById files).foldl relStep []

/-- `group_files[0].size`: the size of the first file of a cluster (clusters
are never empty where this is used; `0` is the value for the impossible `[]`). -/
def headSize (v : List DuplicateFile) : Nat :=
  match v with
  | [] => 0
  | f :: _ => f.size

/-- Third loop of `analyze_folder_groups`: turn one `folder_relationships`
entry into a `FolderGroup`, summing `group_files[0].size` per cluster for
`total_shared_size` and `group_files[0].size * (len(group_files) - 1)` per
cluster for `wasted_space`. -/
def mkGroup (key : List String) (entries : List (String × List DuplicateFile)) :
    FolderGroup :=
  { folders := key
    shared_files := entries
    total_shared_size := (entries.map (fun e => headSize e.2)).sum
    wasted_space := (entries.map (fun e => headSize e.2 * (e.2.length - 1))).sum }

/-- The sort key of both result sorts: `key=lambda x: x.total_shared_size,
reverse=True`, i.e. descending by `total_shared_size`. -/
def byTotalDesc (a b : FolderGroup) : Prop :=
  b.total_shared_size ≤ a.total_shared_size

instance : DecidableRel byTotalDesc :=
  fun a b => Nat.decLe b.total_shared_size a.total_shared_size

instance : IsTotal FolderGroup byTotalDesc :=
  ⟨fun a b => Nat.le_total b.total_shared_size a.total_shared_size⟩

instance : IsTrans FolderGroup byTotalDesc :=
  ⟨fun _ _ _ hab hbc => le_trans hbc hab⟩

/-- `FolderAnalyzer.analyze_folder_groups` with threshold `min_group_size`:
group by ID, build folder relationships, emit the groups meeting the
threshold, and sort by `total_shared_size` descending. -/
def analyze_folder_groups (min_group_size : Nat) (files : List DuplicateFile) :
    List FolderGroup :=
  let results := ((folderRel files).map (fun e => mkGroup e.1 e.2)).filter
    (fun g => decide (min_group_size ≤ g.total_shared_size))
  List.insertionSort byTotalDesc results

/-- `is_nested`: `folder1.startswith(folder2 + '/') or
folder2.startswith(folder1 + '/')`, on the underlying character lists. -/
def is_nested (folder1 folder2 : String) : Bool :=
  (folder2 ++ "/").data.isPrefixOf folder1.data ||
    (folder1 ++ "/").data.isPrefixOf folder2.data

/-- `should_merge`: some folder of one group equals or nests with some folder
of the other. -/
def should_merge (group1 group2 : FolderGroup) : Bool :=
  group1.folders.any (fun f1 =>
    group2.folders.any (fun f2 => decide (f1 = f2) || is_nested f1 f2))

/-- `groups[i].shared_files` updated with `groups[j].shared_files`: extend the
list of an existing group ID, insert new IDs at the end. -/
def mergeFiles (a b : List (String × List DuplicateFile)) :
    List (String × List DuplicateFile) :=
  b.foldl (fun acc e => extendEntry acc e.1 e.2) a

/-- The merged group built inside `compact_nested_folders`: union of the
folder sets, merged `shared_files`, and sizes added. -/
def merge_groups (a b : FolderGroup) : FolderGroup :=
  { folders := a.folders ++ b.folders.filter (fun f => decide (f ∉ a.folders))
    shared_files := mergeFiles a.shared_files b.shared_files
    total_shared_size := a.total_shared_size + b.total_shared_size
    wasted_space := a.wasted_space + b.wasted_space }

/-- Inner scan `for j in range(i + 1, len(groups))`: find the first group in
`rest` that should merge with `g`; return the merged group together with the
remaining list. -/
def mergeWithFirst (g : FolderGroup) :
    List FolderGroup → Option (FolderGroup × List FolderGroup)
  | [] => none
  | h :: t =>
    if should_merge g h then some (merge_groups g h, t)
    else
      match mergeWithFirst g t with
      | some (m, t1) => some (m, h :: t1)
      | none => none

/-- One pass of the merge loop: find the first pair `(i, j)`, `i < j`, with
`should_merge groups[i] groups[j]`, replace `groups[i]` by the merged group
and drop `groups[j]`; `none` when a full scan finds no mergeable pair. -/
def mergeStep : List FolderGroup → Option (List FolderGroup)
  | [] => none
  | g :: rest =>
    match mergeWithFirst g rest with
    | some (m, rest1) => some (m :: rest1)
    | none => (mergeStep rest).map (fun l => g :: l)

/-- The `while True` loop of `compact_nested_folders`, indexed by fuel: repeat
`mergeStep` until it finds no mergeable pair. Every merge shrinks the list by
one, so fuel `length + 1` always reaches the fixed point (proved below). -/
def compactLoopFuel : Nat → List FolderGroup → List FolderGroup
  | 0, groups => groups
  | fuel + 1, groups =>
    match mergeStep groups with
    | none => groups
    | some g1 => compactLoopFuel fuel g1

/-- `FolderAnalyzer.compact_nested_folders`: merge until no more merges are
possible, then sort by `total_shared_size` descending. -/
def compact_nested_folders (groups : List FolderGroup) : List FolderGroup :=
  List.insertionSort byTotalDesc (compactLoopFuel (groups.length + 1) groups)

/-- Lookup in an association list, `[]` when the key is absent. -/
def getV (acc : List (String × List DuplicateFile)) (k : String) :
    List DuplicateFile :=
  match acc with
  | [] => []
  | (k1, v) :: rest => if k1 = k then v else getV rest k

/-- The keys of an association list. -/
def keysOf (acc : List (String × List DuplicateFile)) : List String :=
  acc.map Prod.fst

/-- All records of the duplicate cluster identified by `k`, in input order. -/
def clusterOf (files : List DuplicateFile) (k : String) : List DuplicateFile :=
  files.filter (fun f => decide (f.group_id = k))

/-- Lookup in the `folder_relationships` association list, whose keys are
compared as sets, `[]` when no key matches. -/
def relV (acc : List (List String × List (String × List DuplicateFile)))
    (key : List String) : List (String × List DuplicateFile) :=
  match acc with
  | [] => []
  | (k, entries) :: rest => if setEq k key then entries else relV rest key

/-- The folder-set keys of `folder_relationships`. -/
def outerKeys (acc : List (List String × List (String × List DuplicateFile))) :
    List (List String) :=
  acc.map Prod.fst

/-- Every group ID filed anywhere in `folder_relationships`. -/
def allInnerKeys
    (acc : List (List String × List (String × List DuplicateFile))) :
    List String :=
  (acc.map (fun e => keysOf e.2)).flatten

/-- The upstream report invariant: all records sharing a `group_id` carry the
same `size`. -/
def equalSizes (files : List DuplicateFile) : Prop :=
  ∀ f ∈ files, ∀ g ∈ files, f.group_id = g.group_id → f.size = g.size

instance (files : List DuplicateFile) : Decidable (equalSizes files) := by
  unfold equalSizes; infer_instance

/-- A `FolderGroup` seen up to the orders that are incidental in the Python
code (set iteration and dict insertion): folders as a multiset, and
`shared_files` as a multiset of (group ID, multiset of records). -/
def canonGroup (G : FolderGroup) :
    Multiset String × Nat × Nat × Multiset (String × Multiset DuplicateFile) :=
  (↑G.folders, G.total_shared_size, G.wasted_space,
    ↑(G.shared_files.map (fun e => (e.1, (↑e.2 : Multiset DuplicateFile)))))

instance :
    DecidableEq (Multiset String × Nat × Nat ×
      Multiset (String × Multiset DuplicateFile)) :=
  instDecidableEqProd

/-- `total_shared_size` and `wasted_space` agree with recomputation from
`shared_files`: one summand per distinct group ID, whose record list is
exactly that cluster's records from `files`. -/
def group_consistent (files : List DuplicateFile) (G : FolderGroup) : Prop :=
  (keysOf G.shared_files).Nodup ∧
  (∀ e ∈ G.shared_files, e.2 = clusterOf files e.1) ∧
  G.total_shared_size = (G.shared_files.map (fun e => headSize e.2)).sum ∧
  G.wasted_space =
    (G.shared_files.map (fun e => headSize e.2 * (e.2.length - 1))).sum

/-- The `shared_files` keys of two groups are disjoint (no shared group ID). -/
def disjointKeys (G G1 : FolderGroup) : Prop :=
  ∀ k ∈ keysOf G.shared_files, k ∉ keysOf G1.shared_files

/-- No folder of one group equals or nests with any folder of the other. -/
def unmergeable (G G1 : FolderGroup) : Prop :=
  ∀ a ∈ G.folders, ∀ b ∈ G1.folders, a ≠ b ∧ is_nested a b = false

/-- Two clusters of sizes 1000 and 2000 over the same folder pair. -/
def exampleFiles : List DuplicateFile :=
  [⟨"1", "photos", "/volume1/photos/small.jpg", 1000⟩,
   ⟨"1", "backup", "/volume1/backup/small.jpg", 1000⟩,
   ⟨"2", "photos", "/volume1/photos/large.jpg", 2000⟩,
   ⟨"2", "backup", "/volume1/backup/large.jpg", 2000⟩]

/-- Folder sets {A, A/x}, {A/x, B}, {B, C}: a transitive nesting chain. -/
def chainGroups : List FolderGroup :=
  [⟨["A", "A/x"], [("1", [])], 10, 0⟩,
   ⟨["A/x", "B"], [("2", [])], 20, 0⟩,
   ⟨["B", "C"], [("3", [])], 30, 0⟩]

/-- One cluster, two folders, two records of different sizes (violating the
upstream equal-size invariant). -/
def sizesFilesA : List DuplicateFile :=
  [⟨"g", "A", "/volume1/A/p", 5⟩, ⟨"g", "B", "/volume1/B/p", 7⟩]

/-- `sizesFilesA` reversed. -/
def sizesFilesB : List DuplicateFile :=
  [⟨"g", "B", "/volume1/B/p", 7⟩, ⟨"g", "A", "/volume1/A/p", 5⟩]

/-- The single group the analyzer produces from `exampleFiles`. -/
def exampleGroup : FolderGroup :=
  { folders := ["photos", "backup"]
    shared_files :=
      [("1", [⟨"1", "photos", "/volume1/photos/small.jpg", 1000⟩,
              ⟨"1", "backup", "/volume1/backup/small.jpg", 1000⟩]),
       ("2", [⟨"2", "photos", "/volume1/photos/large.jpg", 2000⟩,
              ⟨"2", "backup", "/volume1/backup/large.jpg", 2000⟩])]
    total_shared_size := 3000
    wasted_space := 3000 }

/-- `exampleFiles` extended with a cluster that spans a single folder. -/
def singleFolderFiles : List DuplicateFile :=
  exampleFiles ++ [⟨"3", "photos", "/volume1/photos/extra.jpg", 50⟩]

theorem getV_appendAt (acc : List (String × List DuplicateFile)) (k : String)
    (f : DuplicateFile) (k1 : String) :
    getV (appendAt acc k f) k1 =
      if k1 = k then getV acc k ++ [f] else getV acc k1 := by
  induction acc with
  | nil =>
    by_cases h : k1 = k
    · subst h; simp [appendAt, getV]
    · have h2 : ¬ k = k1 := fun h2 => h h2.symm
      simp [appendAt, getV, h, h2]
  | cons e rest ih =>
    obtain ⟨a, v⟩ := e
    by_cases hak : a = k
    · subst hak
      by_cases h1 : k1 = a
      · subst h1; simp [appendAt, getV]
      · have h2 : ¬ a = k1 := fun h2 => h1 h2.symm
        simp [appendAt, getV, h1, h2]
    · by_cases h1 : a = k1
      · have h2 : ¬ k1 = k := fun hh => hak (h1.trans hh)
        simp [appendAt, getV, hak, h1, h2]
      · simp [appendAt, getV, hak, h1, ih]

theorem getV_foldl (files : List DuplicateFile)
    (acc : List (String × List DuplicateFile)) (k : String) :
    getV (files.foldl (fun acc f => appendAt acc f.group_id f) acc) k =
      getV acc k ++ clusterOf files k := by
  induction files generalizing acc with
  | nil => simp [clusterOf]
  | cons f fs ih =>
    simp only [List.foldl_cons, ih, clusterOf, List.filter_cons]
    by_cases h : f.group_id = k
    · simp [getV_appendAt, h, clusterOf]
    · have h1 : ¬ k = f.group_id := fun h2 => h h2.symm
      simp [getV_appendAt, h, h1, clusterOf]

theorem getV_groupsById (files : List DuplicateFile) (k : String) :
    getV (groupsById files) k = clusterOf files k := by
  simpa [groupsById, getV] using getV_foldl files [] k

theorem keysOf_appendAt (acc : List (String × List DuplicateFile)) (k : String)
    (f : DuplicateFile) :
    keysOf (appendAt acc k f) =
      if k ∈ keysOf acc then keysOf acc else keysOf acc ++ [k] := by
  induction acc with
  | nil => simp [appendAt, keysOf]
  | cons e rest ih =>
    obtain ⟨a, v⟩ := e
    by_cases hak : a = k
    · subst hak; simp [appendAt, keysOf]
    · have h1 : ¬ k = a := fun h => hak h.symm
      simp only [appendAt, hak, if_false, keysOf, List.map_cons] at ih ⊢
      rw [ih]
      by_cases h2 : k ∈ rest.map Prod.fst <;> simp [h2, h1]

theorem nodup_keys_foldl (files : List DuplicateFile)
    (acc : List (String × List DuplicateFile)) (h : (keysOf acc).Nodup) :
    (keysOf (files.foldl (fun acc f => appendAt acc f.group_id f) acc)).Nodup := by
  induction files generalizing acc with
  | nil => exact h
  | cons f fs ih =>
    simp only [List.foldl_cons]
    refine ih _ ?_
    rw [keysOf_appendAt]
    by_cases h2 : f.group_id ∈ keysOf acc
    · simpa [h2] using h
    · rw [if_neg h2, List.nodup_append]
      exact ⟨h, List.nodup_singleton _,
        fun a ha hb => h2 ((List.mem_singleton.1 hb) ▸ ha)⟩

theorem nodup_keys_groupsById (files : List DuplicateFile) :
    (keysOf (groupsById files)).Nodup :=
  nodup_keys_foldl files [] (by simp [keysOf])

theorem mem_keys_foldl (files : List DuplicateFile)
    (acc : List (String × List DuplicateFile)) (k : String) :
    k ∈ keysOf (files.foldl (fun acc f => appendAt acc f.group_id f) acc) ↔
      k ∈ keysOf acc ∨ ∃ f ∈ files, f.group_id = k := by
  induction files generalizing acc with
  | nil => simp
  | cons f fs ih =>
    simp only [List.foldl_cons, ih, keysOf_appendAt]
    by_cases h2 : f.group_id ∈ keysOf acc
    · rw [if_pos h2]
      constructor
      · rintro (h | ⟨g, hg, hgk⟩)
        · exact Or.inl h
        · exact Or.inr ⟨g, List.mem_cons_of_mem f hg, hgk⟩
      · rintro (h | ⟨g, hg, hgk⟩)
        · exact Or.inl h
        · rcases List.mem_cons.1 hg with rfl | hg2
          · exact Or.inl (hgk ▸ h2)
          · exact Or.inr ⟨g, hg2, hgk⟩
    · rw [if_neg h2]
      constructor
      · rintro (h | ⟨g, hg, hgk⟩)
        · rcases List.mem_append.1 h with h | h
          · exact Or.inl h
          · exact Or.inr ⟨f, List.mem_cons_self f fs, (List.mem_singleton.1 h).symm⟩
        · exact Or.inr ⟨g, List.mem_cons_of_mem f hg, hgk⟩
      · rintro (h | ⟨g, hg, hgk⟩)
        · exact Or.inl (List.mem_append.2 (Or.inl h))
        · rcases List.mem_cons.1 hg with rfl | hg2
          · exact Or.inl (List.mem_append.2 (Or.inr (by simp [hgk])))
          · exact Or.inr ⟨g, hg2, hgk⟩

theorem mem_keys_groupsById (files : List DuplicateFile) (k : String) :
    k ∈ keysOf (groupsById files) ↔ ∃ f ∈ files, f.group_id = k := by
  simpa [groupsById, keysOf] using mem_keys_foldl files [] k

theorem getV_of_mem (acc : List (String × List DuplicateFile))
    (h : (keysOf acc).Nodup) (e : String × List DuplicateFile) (he : e ∈ acc) :
    getV acc e.1 = e.2 := by
  induction acc with
  | nil => cases he
  | cons a rest ih =>
    rcases List.mem_cons.1 he with he2 | he2
    · subst he2; simp [getV]
    · have hne : ¬ a.1 = e.1 := by
        intro h1
        have : e.1 ∈ keysOf rest := List.mem_map_of_mem Prod.fst he2
        rw [keysOf, List.map_cons, List.nodup_cons] at h
        exact h.1 (h1 ▸ this)
      obtain ⟨a1, a2⟩ := a
      simp only [getV, hne, if_false]
      exact ih (by rw [keysOf, List.map_cons, List.nodup_cons] at h; exact h.2) he2

theorem entry_groupsById (files : List DuplicateFile)
    (e : String × List DuplicateFile) (he : e ∈ groupsById files) :
    e.2 = clusterOf files e.1 ∧ e.2 ≠ [] := by
  have h1 : getV (groupsById files) e.1 = e.2 :=
    getV_of_mem _ (nodup_keys_groupsById files) e he
  have h2 : e.2 = clusterOf files e.1 := by rw [← h1, getV_groupsById]
  refine ⟨h2, ?_⟩
  have h3 : e.1 ∈ keysOf (groupsById files) := List.mem_map_of_mem Prod.fst he
  rw [mem_keys_groupsById] at h3
  obtain ⟨f, hf, hfk⟩ := h3
  rw [h2, clusterOf]
  intro hnil
  have : f ∈ files.filter (fun f => decide (f.group_id = e.1)) :=
    List.mem_filter.2 ⟨hf, by simp [hfk]⟩
  rw [hnil] at this
  cases this

theorem setEq_iff (a b : List String) :
    setEq a b = true ↔ ∀ x : String, x ∈ a ↔ x ∈ b := by
  simp only [setEq, Bool.and_eq_true, List.all_eq_true, decide_eq_true_eq]
  constructor
  · rintro ⟨h1, h2⟩ x
    exact ⟨fun hx => h1 x hx, fun hx => h2 x hx⟩
  · intro h
    exact ⟨fun x hx => (h x).1 hx, fun x hx => (h x).2 hx⟩

theorem setEq_refl (a : List String) : setEq a a = true :=
  (setEq_iff a a).2 (fun _ => Iff.rfl)

theorem setEq_symm {a b : List String} (h : setEq a b = true) :
    setEq b a = true :=
  (setEq_iff b a).2 (fun x => ((setEq_iff a b).1 h x).symm)

theorem setEq_trans {a b c : List String} (h1 : setEq a b = true)
    (h2 : setEq b c = true) : setEq a c = true :=
  (setEq_iff a c).2
    (fun x => ((setEq_iff a b).1 h1 x).trans ((setEq_iff b c).1 h2 x))

theorem keysOf_extendEntry (acc : List (String × List DuplicateFile))
    (k : String) (v : List DuplicateFile) :
    keysOf (extendEntry acc k v) =
      if k ∈ keysOf acc then keysOf acc else keysOf acc ++ [k] := by
  induction acc with
  | nil => simp [extendEntry, keysOf]
  | cons e rest ih =>
    obtain ⟨a, w⟩ := e
    by_cases hak : a = k
    · subst hak; simp [extendEntry, keysOf]
    · have h1 : ¬ k = a := fun h => hak h.symm
      simp only [extendEntry, hak, if_false, keysOf, List.map_cons] at ih ⊢
      rw [ih]
      by_cases h2 : k ∈ rest.map Prod.fst <;> simp [h2, h1]

theorem extendEntry_of_not_mem (acc : List (String × List DuplicateFile))
    (k : String) (v : List DuplicateFile) (h : k ∉ keysOf acc) :
    extendEntry acc k v = acc ++ [(k, v)] := by
  induction acc with
  | nil => simp [extendEntry]
  | cons e rest ih =>
    obtain ⟨a, w⟩ := e
    have hak : ¬ a = k := by
      intro h1; exact h (by simp [keysOf, h1])
    simp only [extendEntry, hak, if_false, List.cons_append]
    rw [ih (fun hm => h (by simp [keysOf] at hm ⊢; exact Or.inr hm))]

theorem extendEntry_ne_nil (acc : List (String × List DuplicateFile))
    (k : String) (v : List DuplicateFile) : extendEntry acc k v ≠ [] := by
  cases acc with
  | nil => simp [extendEntry]
  | cons e rest =>
    obtain ⟨a, w⟩ := e
    by_cases h : a = k <;> simp [extendEntry, h]

theorem relV_addRel (acc : List (List String × List (String × List DuplicateFile)))
    (key : List String) (gid : String) (v : List DuplicateFile)
    (key1 : List String) :
    relV (addRel acc key gid v) key1 =
      if setEq key key1 = true then extendEntry (relV acc key1) gid v
      else relV acc key1 := by
  induction acc with
  | nil =>
    by_cases h : setEq key key1 = true <;> simp [addRel, relV, h, extendEntry]
  | cons e rest ih =>
    obtain ⟨k, entries⟩ := e
    by_cases hk : setEq k key = true
    · by_cases h1 : setEq k key1 = true
      · have h2 : setEq key key1 = true := setEq_trans (setEq_symm hk) h1
        simp [addRel, relV, hk, h1, h2]
      · have h2 : ¬ setEq key key1 = true := fun h2 => h1 (setEq_trans hk h2)
        simp [addRel, relV, hk, h1, h2]
    · by_cases h1 : setEq k key1 = true
      · have h2 : ¬ setEq key key1 = true :=
          fun h2 => hk (setEq_trans h1 (setEq_symm h2))
        simp [addRel, relV, hk, h1, h2]
      · simp [addRel, relV, hk, h1, ih]

theorem relV_mem_of_ne_nil
    (acc : List (List String × List (String × List DuplicateFile)))
    (key : List String) (h : relV acc key ≠ []) :
    ∃ E ∈ acc, setEq E.1 key = true ∧ relV acc key = E.2 := by
  induction acc with
  | nil => simp [relV] at h
  | cons e rest ih =>
    obtain ⟨k, entries⟩ := e
    by_cases hk : setEq k key = true
    · exact ⟨(k, entries), List.mem_cons_self _ _, hk, by simp [relV, hk]⟩
    · have h2 : relV rest key ≠ [] := by simpa [relV, hk] using h
      obtain ⟨E, hE, hs, hr⟩ := ih h2
      exact ⟨E, List.mem_cons_of_mem _ hE, hs, by simp [relV, hk, hr]⟩

theorem relV_of_mem
    (acc : List (List String × List (String × List DuplicateFile)))
    (hp : List.Pairwise (fun k1 k2 => setEq k1 k2 = false) (outerKeys acc))
    (E : List String × List (String × List DuplicateFile)) (hE : E ∈ acc) :
    relV acc E.1 = E.2 := by
  induction acc with
  | nil => cases hE
  | cons e rest ih =>
    obtain ⟨k, entries⟩ := e
    rcases List.mem_cons.1 hE with h | h
    · subst h; simp [relV, setEq_refl]
    · rw [outerKeys, List.map_cons, List.pairwise_cons] at hp
      have hne : setEq k E.1 = false := hp.1 E.1 (List.mem_map_of_mem Prod.fst h)
      rw [relV, if_neg (by simp [hne])]
      exact ih hp.2 h

theorem allInnerKeys_cons
    (E : List String × List (String × List DuplicateFile))
    (acc : List (List String × List (String × List DuplicateFile))) :
    allInnerKeys (E :: acc) = keysOf E.2 ++ allInnerKeys acc := by
  simp [allInnerKeys]

theorem outerKeys_addRel_sub
    (acc : List (List String × List (String × List DuplicateFile)))
    (key : List String) (gid : String) (v : List DuplicateFile) :
    ∀ x ∈ outerKeys (addRel acc key gid v), x ∈ outerKeys acc ∨ x = key := by
  induction acc with
  | nil =>
    intro x hx
    simp [addRel, outerKeys] at hx
    exact Or.inr hx
  | cons e rest ih =>
    obtain ⟨k, entries⟩ := e
    intro x hx
    by_cases hk : setEq k key = true
    · simp only [addRel, if_pos hk, outerKeys, List.map_cons, List.mem_cons] at hx ⊢
      exact Or.inl hx
    · simp only [addRel, if_neg hk, outerKeys, List.map_cons, List.mem_cons] at hx ⊢
      rcases hx with h | h
      · exact Or.inl (Or.inl h)
      · rcases ih x h with h2 | h2
        · exact Or.inl (Or.inr h2)
        · exact Or.inr h2

theorem pairwise_outerKeys_addRel
    (acc : List (List String × List (String × List DuplicateFile)))
    (key : List String) (gid : String) (v : List DuplicateFile)
    (hp : List.Pairwise (fun k1 k2 => setEq k1 k2 = false) (outerKeys acc)) :
    List.Pairwise (fun k1 k2 => setEq k1 k2 = false)
      (outerKeys (addRel acc key gid v)) := by
  induction acc with
  | nil => simp [addRel, outerKeys]
  | cons e rest ih =>
    obtain ⟨k, entries⟩ := e
    rw [outerKeys, List.map_cons, List.pairwise_cons] at hp
    by_cases hk : setEq k key = true
    · simp only [addRel, if_pos hk]
      rw [outerKeys, List.map_cons, List.pairwise_cons]
      exact ⟨hp.1, hp.2⟩
    · simp only [addRel, if_neg hk]
      rw [outerKeys, List.map_cons, List.pairwise_cons]
      refine ⟨?_, ih hp.2⟩
      intro x hx
      rcases outerKeys_addRel_sub rest key gid v x hx with h | h
      · exact hp.1 x h
      · subst h; simpa using hk

theorem outerKey_nodup_addRel
    (acc : List (List String × List (String × List DuplicateFile)))
    (key : List String) (gid : String) (v : List DuplicateFile)
    (h : ∀ x ∈ outerKeys acc, x.Nodup) (hkey : key.Nodup) :
    ∀ x ∈ outerKeys (addRel acc key gid v), x.Nodup := by
  intro x hx
  rcases outerKeys_addRel_sub acc key gid v x hx with h2 | h2
  · exact h x h2
  · exact h2 ▸ hkey

theorem keysOf_relV_sub
    (acc : List (List String × List (String × List DuplicateFile)))
    (key : List String) :
    ∀ x ∈ keysOf (relV acc key), x ∈ allInnerKeys acc := by
  intro x hx
  have hne : relV acc key ≠ [] := by
    intro h; rw [h] at hx; simp [keysOf] at hx
  obtain ⟨E, hE, _, hr⟩ := relV_mem_of_ne_nil acc key hne
  rw [hr] at hx
  exact List.mem_flatten.2 ⟨keysOf E.2, List.mem_map_of_mem _ hE, hx⟩

theorem allInnerKeys_addRel_sub
    (acc : List (List String × List (String × List DuplicateFile)))
    (key : List String) (gid : String) (v : List DuplicateFile) :
    ∀ x ∈ allInnerKeys (addRel acc key gid v), x ∈ allInnerKeys acc ∨ x = gid := by
  induction acc with
  | nil =>
    intro x hx
    simp [addRel, allInnerKeys, keysOf] at hx
    exact Or.inr hx
  | cons e rest ih =>
    obtain ⟨k, entries⟩ := e
    intro x hx
    by_cases hk : setEq k key = true
    · rw [addRel] at hx
      rw [if_pos hk] at hx
      rw [allInnerKeys_cons] at hx
      rcases List.mem_append.1 hx with h | h
      · rw [keysOf_extendEntry] at h
        by_cases h2 : gid ∈ keysOf entries
        · rw [if_pos h2] at h
          exact Or.inl (by rw [allInnerKeys_cons]; exact List.mem_append.2 (Or.inl h))
        · rw [if_neg h2] at h
          rcases List.mem_append.1 h with h | h
          · exact Or.inl (by rw [allInnerKeys_cons]; exact List.mem_append.2 (Or.inl h))
          · exact Or.inr (List.mem_singleton.1 h)
      · exact Or.inl (by rw [allInnerKeys_cons]; exact List.mem_append.2 (Or.inr h))
    · rw [addRel] at hx
      rw [if_neg hk] at hx
      rw [allInnerKeys_cons] at hx
      rcases List.mem_append.1 hx with h | h
      · exact Or.inl (by rw [allInnerKeys_cons]; exact List.mem_append.2 (Or.inl h))
      · rcases ih x h with h2 | h2
        · exact Or.inl (by rw [allInnerKeys_cons]; exact List.mem_append.2 (Or.inr h2))
        · exact Or.inr h2

theorem relV_foldl (es : List (String × List DuplicateFile))
    (acc : List (List String × List (String × List DuplicateFile)))
    (key : List String)
    (hdisj : ∀ e ∈ es, e.1 ∉ allInnerKeys acc)
    (hnd : (es.map Prod.fst).Nodup) :
    relV (es.foldl relStep acc) key =
      relV acc key ++ es.filter (fun e =>
        decide (1 < (clusterFolders e.2).length) &&
          setEq (clusterFolders e.2) key) := by
  induction es generalizing acc with
  | nil => simp
  | cons e rest ih =>
    simp only [List.foldl_cons, List.filter_cons]
    rw [List.map_cons, List.nodup_cons] at hnd
    by_cases hlen : 1 < (clusterFolders e.2).length
    · have hstep : relStep acc e = addRel acc (clusterFolders e.2) e.1 e.2 := by
        rw [relStep, if_pos hlen]
      rw [hstep]
      have hd2 : ∀ e1 ∈ rest, e1.1 ∉ allInnerKeys (addRel acc (clusterFolders e.2) e.1 e.2) := by
        intro e1 he1 hmem
        rcases allInnerKeys_addRel_sub acc _ e.1 e.2 e1.1 hmem with h | h
        · exact hdisj e1 (List.mem_cons_of_mem e he1) h
        · exact hnd.1 (h ▸ List.mem_map_of_mem Prod.fst he1)
      rw [ih _ hd2 hnd.2, relV_addRel]
      by_cases hkey : setEq (clusterFolders e.2) key = true
      · rw [if_pos hkey]
        have hfree : e.1 ∉ keysOf (relV acc key) :=
          fun hm => hdisj e (List.mem_cons_self e rest) (keysOf_relV_sub acc key e.1 hm)
        rw [extendEntry_of_not_mem _ _ _ hfree]
        have hp : (decide (1 < (clusterFolders e.2).length) &&
            setEq (clusterFolders e.2) key) = true := by
          simp [hlen, hkey]
        rw [if_pos hp, List.append_assoc]
        simp
      · rw [if_neg hkey]
        have hp : ¬ ((decide (1 < (clusterFolders e.2).length) &&
            setEq (clusterFolders e.2) key) = true) := by
          simp [hlen, hkey]
        rw [if_neg hp]
    · have hstep : relStep acc e = acc := by rw [relStep, if_neg hlen]
      rw [hstep, ih _ (fun e1 he1 => hdisj e1 (List.mem_cons_of_mem e he1)) hnd.2]
      have hp : ¬ ((decide (1 < (clusterFolders e.2).length) &&
          setEq (clusterFolders e.2) key) = true) := by
        simp [hlen]
      rw [if_neg hp]

theorem relV_folderRel (files : List DuplicateFile) (key : List String) :
    relV (folderRel files) key =
      (groupsById files).filter (fun e =>
        decide (1 < (clusterFolders e.2).length) &&
          setEq (clusterFolders e.2) key) := by
  have h := relV_foldl (groupsById files) [] key
    (by intro e he hm; simp [allInnerKeys] at hm)
    (by simpa [keysOf] using nodup_keys_groupsById files)
  simpa [relV, folderRel] using h

theorem pairwise_outerKeys_foldl (es : List (String × List DuplicateFile))
    (acc : List (List String × List (String × List DuplicateFile)))
    (hp : List.Pairwise (fun k1 k2 => setEq k1 k2 = false) (outerKeys acc)) :
    List.Pairwise (fun k1 k2 => setEq k1 k2 = false)
      (outerKeys (es.foldl relStep acc)) := by
  induction es generalizing acc with
  | nil => exact hp
  | cons e rest ih =>
    simp only [List.foldl_cons]
    refine ih _ ?_
    rw [relStep]
    by_cases h : 1 < (clusterFolders e.2).length
    · rw [if_pos h]; exact pairwise_outerKeys_addRel _ _ _ _ hp
    · rw [if_neg h]; exact hp

theorem pairwise_outerKeys_folderRel (files : List DuplicateFile) :
    List.Pairwise (fun k1 k2 => setEq k1 k2 = false)
      (outerKeys (folderRel files)) :=
  pairwise_outerKeys_foldl _ [] (by simp [outerKeys])

theorem entry_folderRel (files : List DuplicateFile)
    (E : List String × List (String × List DuplicateFile))
    (hE : E ∈ folderRel files) :
    E.2 = (groupsById files).filter (fun e =>
      decide (1 < (clusterFolders e.2).length) &&
        setEq (clusterFolders e.2) E.1) := by
  rw [← relV_folderRel]
  exact (relV_of_mem _ (pairwise_outerKeys_folderRel files) E hE).symm

theorem mem_firstDedup (l : List String) (x : String) :
    x ∈ firstDedup l ↔ x ∈ l := by
  induction l with
  | nil => simp [firstDedup]
  | cons a t ih =>
    simp only [firstDedup, List.mem_cons, List.mem_filter, decide_eq_true_eq]
    constructor
    · rintro (rfl | ⟨h, _⟩)
      · exact Or.inl rfl
      · exact Or.inr (ih.1 h)
    · rintro (rfl | h)
      · exact Or.inl rfl
      · by_cases hxa : x = a
        · exact Or.inl hxa
        · exact Or.inr ⟨ih.2 h, hxa⟩

theorem nodup_firstDedup (l : List String) : (firstDedup l).Nodup := by
  induction l with
  | nil => simp [firstDedup]
  | cons a t ih =>
    simp only [firstDedup, List.nodup_cons]
    refine ⟨?_, ih.filter _⟩
    intro hmem
    have h := (List.mem_filter.1 hmem).2
    simp at h

theorem inner_entry_facts (files : List DuplicateFile)
    (E : List String × List (String × List DuplicateFile))
    (hE : E ∈ folderRel files) (e : String × List DuplicateFile)
    (he : e ∈ E.2) :
    e.2 = clusterOf files e.1 ∧ e.2 ≠ [] ∧
      1 < (clusterFolders e.2).length ∧ setEq (clusterFolders e.2) E.1 = true := by
  rw [entry_folderRel files E hE] at he
  have h1 := List.mem_filter.1 he
  have h2 := entry_groupsById files e h1.1
  have h3 := h1.2
  simp only [Bool.and_eq_true, decide_eq_true_eq] at h3
  exact ⟨h2.1, h2.2, h3.1, h3.2⟩

theorem keys_nodup_entry (files : List DuplicateFile)
    (E : List String × List (String × List DuplicateFile))
    (hE : E ∈ folderRel files) : (keysOf E.2).Nodup := by
  rw [entry_folderRel files E hE]
  exact List.Nodup.sublist ((List.filter_sublist _).map Prod.fst)
    (nodup_keys_groupsById files)

theorem inner_keys_disjoint (files : List DuplicateFile)
    (E E1 : List String × List (String × List DuplicateFile))
    (hE : E ∈ folderRel files) (hE1 : E1 ∈ folderRel files)
    (hne : setEq E.1 E1.1 = false) :
    ∀ gid ∈ keysOf E.2, gid ∉ keysOf E1.2 := by
  intro gid hg hg1
  obtain ⟨e, he, he1⟩ := List.mem_map.1 hg
  obtain ⟨e1, h1e, h1e1⟩ := List.mem_map.1 hg1
  have f1 := inner_entry_facts files E hE e he
  have f2 := inner_entry_facts files E1 hE1 e1 h1e
  have hv : e.2 = e1.2 := by rw [f1.1, f2.1, he1, h1e1]
  have h5 : setEq (clusterFolders e.2) E1.1 = true := by
    rw [hv]; exact f2.2.2.2
  have h6 : setEq E.1 E1.1 = true := setEq_trans (setEq_symm f1.2.2.2) h5
  rw [hne] at h6
  cases h6

theorem ne_nil_addRel
    (acc : List (List String × List (String × List DuplicateFile)))
    (key : List String) (gid : String) (v : List DuplicateFile)
    (h : ∀ E ∈ acc, E.2 ≠ []) :
    ∀ E ∈ addRel acc key gid v, E.2 ≠ [] := by
  induction acc with
  | nil =>
    intro E hE
    simp only [addRel, List.mem_singleton] at hE
    subst hE; simp
  | cons e rest ih =>
    obtain ⟨k, entries⟩ := e
    intro E hE
    by_cases hk : setEq k key = true
    · rw [addRel, if_pos hk] at hE
      rcases List.mem_cons.1 hE with rfl | hE2
      · exact extendEntry_ne_nil entries gid v
      · exact h E (List.mem_cons_of_mem _ hE2)
    · rw [addRel, if_neg hk] at hE
      rcases List.mem_cons.1 hE with rfl | hE2
      · exact h _ (List.mem_cons_self _ _)
      · exact ih (fun E1 hE1 => h E1 (List.mem_cons_of_mem _ hE1)) E hE2

theorem entries_ne_nil_foldl (es : List (String × List DuplicateFile))
    (acc : List (List String × List (String × List DuplicateFile)))
    (h : ∀ E ∈ acc, E.2 ≠ []) :
    ∀ E ∈ es.foldl relStep acc, E.2 ≠ [] := by
  induction es generalizing acc with
  | nil => exact h
  | cons e rest ih =>
    simp only [List.foldl_cons]
    refine ih _ ?_
    rw [relStep]
    by_cases hl : 1 < (clusterFolders e.2).length
    · rw [if_pos hl]; exact ne_nil_addRel acc _ e.1 e.2 h
    · rw [if_neg hl]; exact h

theorem entries_ne_nil_folderRel (files : List DuplicateFile) :
    ∀ E ∈ folderRel files, E.2 ≠ [] :=
  entries_ne_nil_foldl _ [] (by intro E hE; cases hE)

theorem outerKey_nodup_foldl (es : List (String × List DuplicateFile))
    (acc : List (List String × List (String × List DuplicateFile)))
    (h : ∀ x ∈ outerKeys acc, x.Nodup) :
    ∀ x ∈ outerKeys (es.foldl relStep acc), x.Nodup := by
  induction es generalizing acc with
  | nil => exact h
  | cons e rest ih =>
    simp only [List.foldl_cons]
    refine ih _ ?_
    rw [relStep]
    by_cases hl : 1 < (clusterFolders e.2).length
    · rw [if_pos hl]
      exact outerKey_nodup_addRel acc _ e.1 e.2 h (nodup_firstDedup _)
    · rw [if_neg hl]; exact h

theorem outerKey_nodup_folderRel (files : List DuplicateFile) :
    ∀ x ∈ outerKeys (folderRel files), x.Nodup :=
  outerKey_nodup_foldl _ [] (by intro x hx; cases hx)

theorem mem_analyze (m : Nat) (files : List DuplicateFile) (G : FolderGroup) :
    G ∈ analyze_folder_groups m files ↔
      (∃ E ∈ folderRel files, G = mkGroup E.1 E.2) ∧
        m ≤ G.total_shared_size := by
  simp only [analyze_folder_groups, List.mem_insertionSort, List.mem_filter,
    List.mem_map, decide_eq_true_eq]
  constructor
  · rintro ⟨⟨E, hE, rfl⟩, h2⟩
    exact ⟨⟨E, hE, rfl⟩, h2⟩
  · rintro ⟨⟨E, hE, rfl⟩, h2⟩
    exact ⟨⟨E, hE, rfl⟩, h2⟩

theorem is_nested_symm (a b : String) : is_nested a b = is_nested b a := by
  rw [is_nested, is_nested, Bool.or_comm]

theorem should_merge_symm (a b : FolderGroup) :
    should_merge a b = should_merge b a := by
  have h : should_merge a b = true ↔ should_merge b a = true := by
    simp only [should_merge, List.any_eq_true, Bool.or_eq_true, decide_eq_true_eq]
    constructor
    · rintro ⟨f1, h1, f2, h2, h3 | h3⟩
      · exact ⟨f2, h2, f1, h1, Or.inl h3.symm⟩
      · exact ⟨f2, h2, f1, h1, Or.inr (by rw [is_nested_symm]; exact h3)⟩
    · rintro ⟨f1, h1, f2, h2, h3 | h3⟩
      · exact ⟨f2, h2, f1, h1, Or.inl h3.symm⟩
      · exact ⟨f2, h2, f1, h1, Or.inr (by rw [is_nested_symm]; exact h3)⟩
  cases ha : should_merge a b <;> cases hb : should_merge b a <;> simp_all

theorem mergeWithFirst_none_iff (g : FolderGroup) (l : List FolderGroup) :
    mergeWithFirst g l = none ↔ ∀ x ∈ l, should_merge g x = false := by
  induction l with
  | nil => simp [mergeWithFirst]
  | cons b t ih =>
    rw [mergeWithFirst]
    by_cases hm : should_merge g b = true
    · rw [if_pos hm]
      constructor
      · intro h; cases h
      · intro hall
        have h2 := hall b (List.mem_cons_self b t)
        rw [hm] at h2; cases h2
    · rw [if_neg hm]
      have hf : should_merge g b = false := by simpa using hm
      cases ht : mergeWithFirst g t with
      | some p =>
        obtain ⟨m, t1⟩ := p
        constructor
        · intro h; cases h
        · intro hall
          have h2 : mergeWithFirst g t = none :=
            ih.2 (fun x hx => hall x (List.mem_cons_of_mem b hx))
          rw [ht] at h2; cases h2
      | none =>
        constructor
        · intro _ x hx
          rcases List.mem_cons.1 hx with rfl | hx2
          · exact hf
          · exact (ih.1 ht) x hx2
        · intro _; rfl

theorem mergeWithFirst_some (g : FolderGroup) (l : List FolderGroup)
    (m : FolderGroup) (l1 : List FolderGroup)
    (h : mergeWithFirst g l = some (m, l1)) :
    ∃ q b t, l = q ++ b :: t ∧ l1 = q ++ t ∧ m = merge_groups g b := by
  induction l generalizing m l1 with
  | nil => cases h
  | cons b t ih =>
    rw [mergeWithFirst] at h
    by_cases hm : should_merge g b = true
    · rw [if_pos hm] at h
      simp only [Option.some.injEq, Prod.mk.injEq] at h
      obtain ⟨rfl, rfl⟩ := h
      exact ⟨[], b, t, rfl, rfl, rfl⟩
    · rw [if_neg hm] at h
      cases ht : mergeWithFirst g t with
      | none => rw [ht] at h; cases h
      | some p =>
        obtain ⟨m2, t2⟩ := p
        rw [ht] at h
        simp only [Option.some.injEq, Prod.mk.injEq] at h
        obtain ⟨rfl, rfl⟩ := h
        obtain ⟨q, c, t3, hq1, hq2, hq3⟩ := ih m2 t2 ht
        exact ⟨b :: q, c, t3, by rw [hq1]; rfl, by rw [hq2]; rfl, hq3⟩

theorem mergeStep_some (l l1 : List FolderGroup) (h : mergeStep l = some l1) :
    ∃ p g q b t, l = p ++ g :: q ++ b :: t ∧
      l1 = p ++ merge_groups g b :: q ++ t := by
  induction l generalizing l1 with
  | nil => cases h
  | cons g rest ih =>
    rw [mergeStep] at h
    cases hw : mergeWithFirst g rest with
    | some pr =>
      obtain ⟨m, rest1⟩ := pr
      rw [hw] at h
      simp only [Option.some.injEq] at h
      obtain ⟨q, b, t, h1, h2, h3⟩ := mergeWithFirst_some g rest m rest1 hw
      refine ⟨[], g, q, b, t, by rw [h1]; simp, ?_⟩
      rw [← h, h2, h3]
      simp
    | none =>
      rw [hw] at h
      cases hs : mergeStep rest with
      | none => rw [hs] at h; cases h
      | some l2 =>
        rw [hs] at h
        simp only [Option.map_some', Option.some.injEq] at h
        obtain ⟨p, g1, q, b, t, h1, h2⟩ := ih l2 hs
        exact ⟨g :: p, g1, q, b, t, by rw [h1]; rfl, by rw [← h, h2]; rfl⟩

theorem mergeStep_none_iff (l : List FolderGroup) :
    mergeStep l = none ↔
      List.Pairwise (fun a b => should_merge a b = false) l := by
  induction l with
  | nil => simp [mergeStep]
  | cons g rest ih =>
    rw [mergeStep, List.pairwise_cons]
    cases hw : mergeWithFirst g rest with
    | some pr =>
      obtain ⟨m, t1⟩ := pr
      constructor
      · intro h; cases h
      · rintro ⟨hall, _⟩
        have h2 : mergeWithFirst g rest = none :=
          (mergeWithFirst_none_iff g rest).2 hall
        rw [hw] at h2; cases h2
    | none =>
      constructor
      · intro h
        refine ⟨(mergeWithFirst_none_iff g rest).1 hw, ih.1 ?_⟩
        cases hs : mergeStep rest with
        | none => rfl
        | some l2 => rw [hs] at h; cases h
      · rintro ⟨_, hp⟩
        rw [ih.2 hp]
        rfl

theorem mergeStep_length (l l1 : List FolderGroup) (h : mergeStep l = some l1) :
    l1.length + 1 = l.length := by
  obtain ⟨p, g, q, b, t, rfl, rfl⟩ := mergeStep_some l l1 h
  simp only [List.length_append, List.length_cons]
  omega

theorem mergeStep_mem (l l1 : List FolderGroup) (h : mergeStep l = some l1) :
    ∀ x ∈ l1, x ∈ l ∨ ∃ a ∈ l, ∃ b ∈ l, x = merge_groups a b := by
  obtain ⟨p, g, q, b, t, rfl, rfl⟩ := mergeStep_some l l1 h
  intro x hx
  rcases List.mem_append.1 hx with h1 | h1
  · rcases List.mem_append.1 h1 with h2 | h2
    · exact Or.inl (by simp [h2])
    · rcases List.mem_cons.1 h2 with rfl | h3
      · exact Or.inr ⟨g, by simp, b, by simp⟩
      · exact Or.inl (by simp [h3])
  · exact Or.inl (by simp [h1])

theorem compactLoopFuel_fixpoint (fuel : Nat) (l : List FolderGroup)
    (h : l.length < fuel) : mergeStep (compactLoopFuel fuel l) = none := by
  induction fuel generalizing l with
  | zero => exact absurd h (Nat.not_lt_zero _)
  | succ n ih =>
    rw [compactLoopFuel]
    cases hs : mergeStep l with
    | none => exact hs
    | some l2 =>
      have hl := mergeStep_length l l2 hs
      exact ih l2 (by omega)

theorem compactLoopFuel_mem (fuel : Nat) (l : List FolderGroup)
    (P : FolderGroup → Prop)
    (hmerge : ∀ a b, P a → P b → P (merge_groups a b))
    (hl : ∀ g ∈ l, P g) : ∀ g ∈ compactLoopFuel fuel l, P g := by
  induction fuel generalizing l with
  | zero => exact hl
  | succ n ih =>
    rw [compactLoopFuel]
    cases hs : mergeStep l with
    | none => exact hl
    | some l2 =>
      refine ih l2 ?_
      intro g hg
      rcases mergeStep_mem l l2 hs g hg with h | ⟨a, ha, b, hb, rfl⟩
      · exact hl g h
      · exact hmerge a b (hl a ha) (hl b hb)

theorem mergeStep_pairwise (P : FolderGroup → Prop)
    (Q : FolderGroup → FolderGroup → Prop)
    (hQsymm : ∀ a b, Q a b → Q b a)
    (hPmerge : ∀ a b, P a → P b → Q a b → P (merge_groups a b))
    (hQmerge : ∀ a b c, Q a c → Q b c → Q (merge_groups a b) c)
    (l l1 : List FolderGroup) (h : mergeStep l = some l1)
    (hP : ∀ g ∈ l, P g) (hQ : List.Pairwise Q l) :
    (∀ g ∈ l1, P g) ∧ List.Pairwise Q l1 := by
  obtain ⟨p, g, q, b, t, rfl, rfl⟩ := mergeStep_some l l1 h
  have hC : ∀ x ∈ p ++ g :: q, ∀ y ∈ b :: t, Q x y := (List.pairwise_append.1 hQ).2.2
  have hA : List.Pairwise Q (p ++ g :: q) := (List.pairwise_append.1 hQ).1
  have hB : List.Pairwise Q (b :: t) := (List.pairwise_append.1 hQ).2.1
  have hAp : List.Pairwise Q p := (List.pairwise_append.1 hA).1
  have hAgq : List.Pairwise Q (g :: q) := (List.pairwise_append.1 hA).2.1
  have hApgq : ∀ x ∈ p, ∀ y ∈ g :: q, Q x y := (List.pairwise_append.1 hA).2.2
  have hgq : ∀ y ∈ q, Q g y := (List.pairwise_cons.1 hAgq).1
  have hq : List.Pairwise Q q := (List.pairwise_cons.1 hAgq).2
  have hbt : ∀ y ∈ t, Q b y := (List.pairwise_cons.1 hB).1
  have ht : List.Pairwise Q t := (List.pairwise_cons.1 hB).2
  have hQgb : Q g b := hC g (by simp) b (by simp)
  have hPm : P (merge_groups g b) :=
    hPmerge g b (hP g (by simp)) (hP b (by simp)) hQgb
  have hmx : ∀ x ∈ p, Q x (merge_groups g b) := fun x hx =>
    hQsymm _ _ (hQmerge g b x (hQsymm _ _ (hApgq x hx g (by simp)))
      (hQsymm _ _ (hC x (by simp [hx]) b (by simp))))
  have hmy : ∀ y ∈ q, Q (merge_groups g b) y := fun y hy =>
    hQmerge g b y (hgq y hy) (hQsymm _ _ (hC y (by simp [hy]) b (by simp)))
  have hmt : ∀ y ∈ t, Q (merge_groups g b) y := fun y hy =>
    hQmerge g b y (hC g (by simp) y (by simp [hy])) (hbt y hy)
  constructor
  · intro x hx
    rcases List.mem_append.1 hx with h1 | h1
    · rcases List.mem_append.1 h1 with h2 | h2
      · exact hP x (by simp [h2])
      · rcases List.mem_cons.1 h2 with rfl | h3
        · exact hPm
        · exact hP x (by simp [h3])
    · exact hP x (by simp [h1])
  · refine List.pairwise_append.2 ⟨?_, ht, ?_⟩
    · refine List.pairwise_append.2 ⟨hAp, ?_, ?_⟩
      · exact List.pairwise_cons.2 ⟨hmy, hq⟩
      · intro x hx y hy
        rcases List.mem_cons.1 hy with rfl | h3
        · exact hmx x hx
        · exact hApgq x hx y (by simp [h3])
    · intro x hx y hy
      rcases List.mem_append.1 hx with h1 | h1
      · exact hC x (by simp [h1]) y (by simp [hy])
      · rcases List.mem_cons.1 h1 with rfl | h3
        · exact hmt y hy
        · exact hC x (by simp [h3]) y (by simp [hy])

theorem compactLoopFuel_pairwise (P : FolderGroup → Prop)
    (Q : FolderGroup → FolderGroup → Prop)
    (hQsymm : ∀ a b, Q a b → Q b a)
    (hPmerge : ∀ a b, P a → P b → Q a b → P (merge_groups a b))
    (hQmerge : ∀ a b c, Q a c → Q b c → Q (merge_groups a b) c)
    (fuel : Nat) (l : List FolderGroup)
    (hP : ∀ g ∈ l, P g) (hQ : List.Pairwise Q l) :
    (∀ g ∈ compactLoopFuel fuel l, P g) ∧
      List.Pairwise Q (compactLoopFuel fuel l) := by
  induction fuel generalizing l with
  | zero => exact ⟨hP, hQ⟩
  | succ n ih =>
    rw [compactLoopFuel]
    cases hs : mergeStep l with
    | none => exact ⟨hP, hQ⟩
    | some l2 =>
      obtain ⟨h1, h2⟩ :=
        mergeStep_pairwise P Q hQsymm hPmerge hQmerge l l2 hs hP hQ
      exact ih l2 h1 h2

theorem keysOf_mergeFiles_sub (b a : List (String × List DuplicateFile)) :
    ∀ x ∈ keysOf (mergeFiles a b), x ∈ keysOf a ∨ x ∈ keysOf b := by
  induction b generalizing a with
  | nil => intro x hx; exact Or.inl hx
  | cons e rest ih =>
    obtain ⟨k, v⟩ := e
    intro x hx
    rw [mergeFiles, List.foldl_cons] at hx
    rcases ih (extendEntry a k v) x hx with h1 | h1
    · rw [keysOf_extendEntry] at h1
      by_cases h2 : k ∈ keysOf a
      · rw [if_pos h2] at h1; exact Or.inl h1
      · rw [if_neg h2] at h1
        rcases List.mem_append.1 h1 with h3 | h3
        · exact Or.inl h3
        · exact Or.inr (by simp [keysOf, List.mem_singleton.1 h3])
    · exact Or.inr (by simp [keysOf]; exact Or.inr (by simpa [keysOf] using h1))

theorem mergeFiles_of_disjoint (b a : List (String × List DuplicateFile))
    (hnd : (keysOf b).Nodup)
    (h : ∀ k ∈ keysOf b, k ∉ keysOf a) : mergeFiles a b = a ++ b := by
  induction b generalizing a with
  | nil => simp [mergeFiles]
  | cons e rest ih =>
    obtain ⟨k, v⟩ := e
    simp only [keysOf, List.map_cons, List.nodup_cons] at hnd
    rw [mergeFiles, List.foldl_cons]
    have hk : k ∉ keysOf a := h k (by simp [keysOf])
    show mergeFiles (extendEntry a k v) rest = _
    rw [extendEntry_of_not_mem a k v hk]
    have hdisj2 : ∀ k1 ∈ keysOf rest, k1 ∉ keysOf (a ++ [(k, v)]) := by
      intro k1 hk1 hmem
      have he : keysOf (a ++ [(k, v)]) = keysOf a ++ [k] := by simp [keysOf]
      rw [he] at hmem
      rcases List.mem_append.1 hmem with h2 | h2
      · exact h k1 (by simp [keysOf] at hk1 ⊢; exact Or.inr hk1) h2
      · exact hnd.1 ((List.mem_singleton.1 h2) ▸ hk1)
    rw [ih (a ++ [(k, v)]) hnd.2 hdisj2]
    simp

theorem mem_clusterOf (files : List DuplicateFile) (k : String)
    (r : DuplicateFile) : r ∈ clusterOf files k ↔ r ∈ files ∧ r.group_id = k := by
  simp [clusterOf, List.mem_filter]

theorem size_eq_headSize (l : List DuplicateFile) (r : DuplicateFile)
    (hr : r ∈ l) (h : ∀ x ∈ l, ∀ y ∈ l, x.size = y.size) :
    r.size = headSize l := by
  cases l with
  | nil => cases hr
  | cons r0 rest => exact h r hr r0 (List.mem_cons_self _ _)

theorem should_merge_eq_false_iff (a b : FolderGroup) :
    should_merge a b = false ↔ unmergeable a b := by
  rw [unmergeable]
  constructor
  · intro h f1 h1 f2 h2
    have h3 : ¬ should_merge a b = true := by simp [h]
    simp only [should_merge, List.any_eq_true, Bool.or_eq_true,
      decide_eq_true_eq] at h3
    push_neg at h3
    obtain ⟨hne, hnest⟩ := h3 f1 h1 f2 h2
    exact ⟨hne, by simpa using hnest⟩
  · intro h
    have h2 : ¬ should_merge a b = true := by
      intro ht
      simp only [should_merge, List.any_eq_true, Bool.or_eq_true,
        decide_eq_true_eq] at ht
      obtain ⟨f1, h1, f2, h2, h3 | h3⟩ := ht
      · exact (h f1 h1 f2 h2).1 h3
      · rw [(h f1 h1 f2 h2).2] at h3; cases h3
    simpa using h2

theorem compact_no_merge (groups : List FolderGroup) :
    List.Pairwise (fun a b => should_merge a b = false)
      (compact_nested_folders groups) := by
  have h1 : mergeStep (compactLoopFuel (groups.length + 1) groups) = none :=
    compactLoopFuel_fixpoint _ _ (Nat.lt_succ_self _)
  have h2 := (mergeStep_none_iff _).1 h1
  have hperm :
      List.Perm (List.insertionSort byTotalDesc
          (compactLoopFuel (groups.length + 1) groups))
        (compactLoopFuel (groups.length + 1) groups) :=
    List.perm_insertionSort _ _
  rw [compact_nested_folders]
  exact (List.Perm.pairwise_iff
    (fun h => (should_merge_symm _ _) ▸ h) hperm).2 h2

theorem analyze_group_consistent (m : Nat) (files : List DuplicateFile) :
    ∀ G ∈ analyze_folder_groups m files, group_consistent files G := by
  intro G hG
  obtain ⟨⟨E, hE, rfl⟩, _⟩ := (mem_analyze m files G).1 hG
  refine ⟨keys_nodup_entry files E hE, ?_, rfl, rfl⟩
  intro e he
  exact (inner_entry_facts files E hE e he).1

/-- C1: under the equal-size-per-groupID invariant, every group returned by
`analyze_folder_groups` has `total_shared_size` equal to the sum, once per
distinct group ID of its `shared_files`, of that cluster's per-copy size, and
`wasted_space` equal to the sum, once per distinct group ID, of that size
times (number of the cluster's records in the group minus 1); each entry is
exactly the cluster's record list and all its records share the summed size. -/
theorem analyze_totals_recomputed (m : Nat) (files : List DuplicateFile)
    (hsz : equalSizes files) :
    ∀ G ∈ analyze_folder_groups m files,
      (keysOf G.shared_files).Nodup ∧
      G.total_shared_size =
        (G.shared_files.map (fun e => headSize e.2)).sum ∧
      G.wasted_space =
        (G.shared_files.map (fun e => headSize e.2 * (e.2.length - 1))).sum ∧
      ∀ e ∈ G.shared_files, e.2 = clusterOf files e.1 ∧ e.2 ≠ [] ∧
        ∀ r ∈ e.2, r.size = headSize e.2 := by
  intro G hG
  obtain ⟨⟨E, hE, rfl⟩, _⟩ := (mem_analyze m files G).1 hG
  refine ⟨keys_nodup_entry files E hE, rfl, rfl, ?_⟩
  intro e he
  have hf := inner_entry_facts files E hE e he
  refine ⟨hf.1, hf.2.1, ?_⟩
  intro r hr
  refine size_eq_headSize e.2 r hr ?_
  intro x hx y hy
  have hx2 := (mem_clusterOf files e.1 x).1 (hf.1 ▸ hx)
  have hy2 := (mem_clusterOf files e.1 y).1 (hf.1 ▸ hy)
  exact hsz x hx2.1 y hy2.1 (hx2.2.trans hy2.2.symm)

theorem analyze_totals_recomputed_witness :
    exampleGroup.total_shared_size =
        (exampleGroup.shared_files.map (fun e => headSize e.2)).sum ∧
      exampleGroup.wasted_space =
        (exampleGroup.shared_files.map
          (fun e => headSize e.2 * (e.2.length - 1))).sum :=
  ⟨(analyze_totals_recomputed 0 exampleFiles (by decide) exampleGroup
      (by decide)).2.1,
   (analyze_totals_recomputed 0 exampleFiles (by decide) exampleGroup
      (by decide)).2.2.1⟩

/-- C2: every group returned by `analyze_folder_groups` meets the
`min_group_size` threshold, and the bound survives
`compact_nested_folders` (merging adds totals). -/
theorem min_group_size_bound :
    ∀ (m : Nat) (files : List DuplicateFile),
      (∀ G ∈ analyze_folder_groups m files, m ≤ G.total_shared_size) ∧
      (∀ G ∈ compact_nested_folders (analyze_folder_groups m files),
        m ≤ G.total_shared_size) := by
  intro m files
  have h1 : ∀ G ∈ analyze_folder_groups m files, m ≤ G.total_shared_size :=
    fun G hG => ((mem_analyze m files G).1 hG).2
  refine ⟨h1, ?_⟩
  intro G hG
  rw [compact_nested_folders] at hG
  have h2 := (List.perm_insertionSort byTotalDesc _).mem_iff.1 hG
  exact compactLoopFuel_mem _ _ (fun g => m ≤ g.total_shared_size)
    (fun a b ha _ => le_trans ha (Nat.le_add_right _ _)) h1 G h2

theorem min_group_size_bound_witness :
    1500 ≤ exampleGroup.total_shared_size :=
  (min_group_size_bound 1500 exampleFiles).1 exampleGroup (by decide)

/-- C3: with threshold 1500 and the two clusters (1000 and 2000) over the same
folder pair, both clusters accumulate into one folder-set group before the
threshold applies, so one group with `total_shared_size` 3000 is returned. -/
theorem threshold_after_accumulation :
    (analyze_folder_groups 1500 exampleFiles).map
        (fun G => G.total_shared_size) = [3000] ∧
      (analyze_folder_groups 1500 exampleFiles).length = 1 := by
  constructor <;> decide

/-- C4: in the output of `compact_nested_folders` no two distinct groups are
mergeable (no folder of one equals or nests with a folder of another); the
transitive chain {A, A/x}, {A/x, B}, {B, C} collapses into one group. -/
theorem compact_unmergeable_pairwise :
    ∀ groups : List FolderGroup,
      List.Pairwise unmergeable (compact_nested_folders groups) ∧
        (compact_nested_folders chainGroups).length = 1 := by
  intro groups
  refine ⟨?_, by decide⟩
  exact (compact_no_merge groups).imp
    (fun h => (should_merge_eq_false_iff _ _).1 h)

/-- C6: both `analyze_folder_groups` and `compact_nested_folders` return
lists sorted by `total_shared_size` descending (each element's total is at
least its successor's). -/
theorem outputs_sorted_desc :
    ∀ (m : Nat) (files : List DuplicateFile) (groups : List FolderGroup),
      List.Chain' byTotalDesc (analyze_folder_groups m files) ∧
      List.Chain' byTotalDesc (compact_nested_folders groups) := by
  intro m files groups
  constructor
  · exact List.chain'_iff_pairwise.2 (List.sorted_insertionSort byTotalDesc _)
  · exact List.chain'_iff_pairwise.2 (List.sorted_insertionSort byTotalDesc _)

/-- C7: a cluster whose records span exactly one distinct folder contributes
to no output group of `analyze_folder_groups`: its group ID keys no
`shared_files` entry and none of its records appear there. -/
theorem single_folder_cluster_excluded :
    ∀ (m : Nat) (files : List DuplicateFile) (gid f0 : String),
      (∀ f ∈ files, f.group_id = gid → f.folder = f0) →
      ∀ G ∈ analyze_folder_groups m files, ∀ e ∈ G.shared_files,
        e.1 ≠ gid ∧ ∀ r ∈ e.2, r.group_id ≠ gid := by
  intro m files gid f0 hall G hG
  obtain ⟨⟨E, hE, rfl⟩, _⟩ := (mem_analyze m files G).1 hG
  intro e he
  have hf := inner_entry_facts files E hE e he
  have hkey : e.1 ≠ gid := by
    intro heq
    have h2 : ∀ x ∈ clusterFolders e.2, x = f0 := by
      intro x hx
      rw [clusterFolders, mem_firstDedup] at hx
      obtain ⟨r, hr, rfl⟩ := List.mem_map.1 hx
      have hr2 := (mem_clusterOf files e.1 r).1 (hf.1 ▸ hr)
      exact hall r hr2.1 (heq ▸ hr2.2)
    have hnd : (clusterFolders e.2).Nodup := nodup_firstDedup _
    have hlen := hf.2.2.1
    rcases hcf : clusterFolders e.2 with _ | ⟨x, l2⟩
    · rw [hcf] at hlen; simp at hlen
    rcases l2 with _ | ⟨y, l3⟩
    · rw [hcf] at hlen; simp at hlen
    rw [hcf] at hnd
    have hx0 : x = f0 := h2 x (by rw [hcf]; exact List.mem_cons_self _ _)
    have hy0 : y = f0 := h2 y (by rw [hcf]; simp)
    rw [List.nodup_cons] at hnd
    exact hnd.1 (by rw [hx0, hy0]; exact List.mem_cons_self _ _)
  refine ⟨hkey, ?_⟩
  intro r hr
  have hr2 := (mem_clusterOf files e.1 r).1 (hf.1 ▸ hr)
  rw [hr2.2]
  exact hkey

theorem single_folder_cluster_excluded_witness :
    ("1", [(⟨"1", "photos", "/volume1/photos/small.jpg", 1000⟩ : DuplicateFile),
           ⟨"1", "backup", "/volume1/backup/small.jpg", 1000⟩]).1 ≠ "3" :=
  (single_folder_cluster_excluded 0 singleFolderFiles "3" "photos" (by decide)
    exampleGroup (by decide) _ (by decide)).1

/-- C8: `compact_nested_folders` is idempotent: its output admits no further
merges, so applying it again returns the same list. -/
theorem compact_idempotent :
    ∀ groups : List FolderGroup,
      compact_nested_folders (compact_nested_folders groups) =
        compact_nested_folders groups := by
  intro groups
  have hpw := compact_no_merge groups
  have h1 : mergeStep (compact_nested_folders groups) = none :=
    (mergeStep_none_iff _).2 hpw
  have h3 : List.Sorted byTotalDesc (compact_nested_folders groups) := by
    rw [compact_nested_folders]
    exact List.sorted_insertionSort byTotalDesc _
  have h2 : compactLoopFuel ((compact_nested_folders groups).length + 1)
      (compact_nested_folders groups) = compact_nested_folders groups := by
    rw [compactLoopFuel, h1]
  calc compact_nested_folders (compact_nested_folders groups)
      = List.insertionSort byTotalDesc (compact_nested_folders groups) := by
        rw [compact_nested_folders, h2]
    _ = compact_nested_folders groups := h3.insertionSort_eq

/-- C9: the merge loop of `compact_nested_folders` terminates: every merge
step shrinks the list by exactly one group, and within `length + 1`
iterations a full scan performs no merge. -/
theorem merge_loop_terminates :
    ∀ l : List FolderGroup,
      (∀ l1, mergeStep l = some l1 → l1.length + 1 = l.length) ∧
      mergeStep (compactLoopFuel (l.length + 1) l) = none := by
  intro l
  exact ⟨fun l1 h => mergeStep_length l l1 h,
    compactLoopFuel_fixpoint _ l (Nat.lt_succ_self _)⟩

theorem merge_loop_terminates_witness :
    ([⟨["A", "A/x", "B"], [("1", []), ("2", [])], 30, 0⟩,
      ⟨["B", "C"], [("3", [])], 30, 0⟩] : List FolderGroup).length + 1 =
        chainGroups.length ∧
      mergeStep (compactLoopFuel (chainGroups.length + 1) chainGroups) = none :=
  ⟨(merge_loop_terminates chainGroups).1 _ (by decide),
   (merge_loop_terminates chainGroups).2⟩

theorem disjointKeys_symm (a b : FolderGroup) (h : disjointKeys a b) :
    disjointKeys b a :=
  fun k hkb hka => h k hka hkb

theorem merge_groups_consistent (files : List DuplicateFile)
    (a b : FolderGroup) (ha : group_consistent files a)
    (hb : group_consistent files b) (hq : disjointKeys a b) :
    group_consistent files (merge_groups a b) := by
  have hm : mergeFiles a.shared_files b.shared_files =
      a.shared_files ++ b.shared_files :=
    mergeFiles_of_disjoint b.shared_files a.shared_files hb.1
      (fun k hk => disjointKeys_symm a b hq k hk)
  have hkeys : keysOf (a.shared_files ++ b.shared_files) =
      keysOf a.shared_files ++ keysOf b.shared_files := by
    simp [keysOf]
  refine ⟨?_, ?_, ?_, ?_⟩
  · show (keysOf (mergeFiles a.shared_files b.shared_files)).Nodup
    rw [hm, hkeys, List.nodup_append]
    exact ⟨ha.1, hb.1, fun x hx hy => (hq x hx) hy⟩
  · show ∀ e ∈ mergeFiles a.shared_files b.shared_files, _
    rw [hm]
    intro e he
    rcases List.mem_append.1 he with h1 | h1
    · exact ha.2.1 e h1
    · exact hb.2.1 e h1
  · show a.total_shared_size + b.total_shared_size =
      ((mergeFiles a.shared_files b.shared_files).map
        (fun e => headSize e.2)).sum
    rw [hm, List.map_append, List.sum_append, ha.2.2.1, hb.2.2.1]
  · show a.wasted_space + b.wasted_space =
      ((mergeFiles a.shared_files b.shared_files).map
        (fun e => headSize e.2 * (e.2.length - 1))).sum
    rw [hm, List.map_append, List.sum_append, ha.2.2.2, hb.2.2.2]

theorem merge_groups_disjointKeys (a b c : FolderGroup)
    (hac : disjointKeys a c) (hbc : disjointKeys b c) :
    disjointKeys (merge_groups a b) c := by
  intro k hk
  rcases keysOf_mergeFiles_sub b.shared_files a.shared_files k hk with h | h
  · exact hac k h
  · exact hbc k h

theorem analyze_pairwise_disjointKeys (m : Nat) (files : List DuplicateFile) :
    List.Pairwise disjointKeys (analyze_folder_groups m files) := by
  have hpair : List.Pairwise (fun E E1 => setEq E.1 E1.1 = false)
      (folderRel files) := by
    have h := pairwise_outerKeys_folderRel files
    rw [outerKeys] at h
    exact List.pairwise_map.1 h
  have hQrel : List.Pairwise disjointKeys
      ((folderRel files).map (fun e => mkGroup e.1 e.2)) := by
    rw [List.pairwise_map]
    refine List.Pairwise.imp_of_mem ?_ hpair
    intro E E1 hE hE1 hne k hk
    exact inner_keys_disjoint files E E1 hE hE1 hne k hk
  have hQfil := List.Pairwise.filter
    (fun g => decide (m ≤ g.total_shared_size)) hQrel
  simp only [analyze_folder_groups]
  exact (List.Perm.pairwise_iff (fun h => disjointKeys_symm _ _ h)
    (List.perm_insertionSort byTotalDesc _)).2 hQfil

/-- C5: after `compact_nested_folders` of the analyzer's output (under the
equal-size invariant), every group's `total_shared_size` and `wasted_space`
are still consistent with recomputation from `shared_files`: one summand per
distinct group ID — the cluster's per-copy size, resp. that size times
(copy count minus 1) — even though merging updates them additively. -/
theorem compact_totals_still_consistent (m : Nat) (files : List DuplicateFile)
    (hsz : equalSizes files) :
    ∀ G ∈ compact_nested_folders (analyze_folder_groups m files),
      group_consistent files G ∧
      ∀ e ∈ G.shared_files, ∀ r ∈ e.2, r.size = headSize e.2 := by
  intro G hG
  rw [compact_nested_folders] at hG
  have hGmem := (List.perm_insertionSort byTotalDesc _).mem_iff.1 hG
  have hcons := (compactLoopFuel_pairwise (group_consistent files) disjointKeys
    disjointKeys_symm (merge_groups_consistent files) merge_groups_disjointKeys
    ((analyze_folder_groups m files).length + 1) (analyze_folder_groups m files)
    (analyze_group_consistent m files)
    (analyze_pairwise_disjointKeys m files)).1 G hGmem
  refine ⟨hcons, ?_⟩
  intro e he r hr
  have hclus := hcons.2.1 e he
  refine size_eq_headSize e.2 r hr ?_
  intro x hx y hy
  have hx2 := (mem_clusterOf files e.1 x).1 (hclus ▸ hx)
  have hy2 := (mem_clusterOf files e.1 y).1 (hclus ▸ hy)
  exact hsz x hx2.1 y hy2.1 (hx2.2.trans hy2.2.symm)

theorem compact_totals_still_consistent_witness :
    exampleGroup.total_shared_size =
      (exampleGroup.shared_files.map (fun e => headSize e.2)).sum :=
  ((compact_totals_still_consistent 0 exampleFiles (by decide) exampleGroup
    (by decide)).1).2.2.1

theorem getV_mem (acc : List (String × List DuplicateFile)) (k : String)
    (h : k ∈ keysOf acc) : (k, getV acc k) ∈ acc := by
  induction acc with
  | nil => cases h
  | cons e rest ih =>
    obtain ⟨a, v⟩ := e
    by_cases hak : a = k
    · subst hak; simp [getV]
    · have h2 : k ∈ keysOf rest := by
        simp only [keysOf, List.map_cons, List.mem_cons] at h
        rcases h with h | h
        · exact absurd h.symm hak
        · exact h
      have h3 : ¬ a = k := hak
      simp only [getV, h3, if_false]
      exact List.mem_cons_of_mem _ (ih h2)

theorem keys_groupsById_iff_cluster (files : List DuplicateFile) (k : String) :
    k ∈ keysOf (groupsById files) ↔ clusterOf files k ≠ [] := by
  rw [mem_keys_groupsById]
  constructor
  · rintro ⟨f, hf, hfk⟩ hnil
    have h := (mem_clusterOf files k f).2 ⟨hf, hfk⟩
    rw [hnil] at h; cases h
  · intro h
    cases hc : clusterOf files k with
    | nil => exact absurd hc h
    | cons r t =>
      have h2 : r ∈ clusterOf files k := by rw [hc]; simp
      have h3 := (mem_clusterOf files k r).1 h2
      exact ⟨r, h3.1, h3.2⟩

theorem cluster_mem_groupsById (files : List DuplicateFile) (k : String)
    (h : clusterOf files k ≠ []) : (k, clusterOf files k) ∈ groupsById files := by
  have h2 := getV_mem (groupsById files) k
    ((keys_groupsById_iff_cluster files k).2 h)
  rw [getV_groupsById] at h2
  exact h2

theorem mem_keys_entry_iff (files : List DuplicateFile)
    (E : List String × List (String × List DuplicateFile))
    (hE : E ∈ folderRel files) (g : String) :
    g ∈ keysOf E.2 ↔
      clusterOf files g ≠ [] ∧
        1 < (clusterFolders (clusterOf files g)).length ∧
        setEq (clusterFolders (clusterOf files g)) E.1 = true := by
  constructor
  · intro h
    obtain ⟨e, he, rfl⟩ := List.mem_map.1 h
    have hf := inner_entry_facts files E hE e he
    refine ⟨hf.1 ▸ hf.2.1, ?_, ?_⟩
    · have := hf.2.2.1; rw [hf.1] at this; exact this
    · have := hf.2.2.2; rw [hf.1] at this; exact this
  · rintro ⟨h1, h2, h3⟩
    have hm : (g, clusterOf files g) ∈ groupsById files :=
      cluster_mem_groupsById files g h1
    have hmem : (g, clusterOf files g) ∈ E.2 := by
      rw [entry_folderRel files E hE]
      exact List.mem_filter.2 ⟨hm, by simp [h2, h3]⟩
    exact List.mem_map_of_mem Prod.fst hmem

theorem equalSizes_perm (files files1 : List DuplicateFile)
    (h : equalSizes files) (hp : List.Perm files files1) :
    equalSizes files1 :=
  fun f hf g hg => h f (hp.symm.subset hf) g (hp.symm.subset hg)

theorem sizes_eq_in_cluster (files : List DuplicateFile)
    (hsz : equalSizes files) (g : String) :
    ∀ x ∈ clusterOf files g, ∀ y ∈ clusterOf files g, x.size = y.size := by
  intro x hx y hy
  have hx2 := (mem_clusterOf files g x).1 hx
  have hy2 := (mem_clusterOf files g y).1 hy
  exact hsz x hx2.1 y hy2.1 (hx2.2.trans hy2.2.symm)

theorem headSize_perm_eq (l l1 : List DuplicateFile) (hp : List.Perm l l1)
    (hsame : ∀ x ∈ l, ∀ y ∈ l, x.size = y.size) : headSize l = headSize l1 := by
  cases l with
  | nil => rw [hp.symm.eq_nil]
  | cons x xs =>
    cases h1 : l1 with
    | nil =>
      rw [h1] at hp
      cases hp.eq_nil
    | cons y ys =>
      have hy : y ∈ x :: xs := hp.symm.subset (by rw [h1]; simp)
      exact hsame x (by simp) y hy

theorem map_filter_eq {α : Type} (l : List FolderGroup) (f : FolderGroup → α)
    (q : α → Bool) :
    (l.filter (fun a => q (f a))).map f = (l.map f).filter q := by
  induction l with
  | nil => rfl
  | cons a t ih =>
    by_cases h : q (f a) = true <;> simp [List.filter_cons, h, ih]

theorem entry_map_eq (files : List DuplicateFile)
    (E : List String × List (String × List DuplicateFile))
    (hE : E ∈ folderRel files) {β : Type}
    (f : String × List DuplicateFile → β) :
    E.2.map f = (E.2.map Prod.fst).map (fun g => f (g, clusterOf files g)) := by
  rw [List.map_map]
  apply List.map_congr_left
  intro e he
  have h := (inner_entry_facts files E hE e he).1
  show f e = f (e.1, clusterOf files e.1)
  rw [← h, Prod.mk.eta]

theorem pairwise_entries_folderRel (files : List DuplicateFile) :
    List.Pairwise (fun E E1 => setEq E.1 E1.1 = false) (folderRel files) := by
  have h := pairwise_outerKeys_folderRel files
  rw [outerKeys] at h
  exact List.pairwise_map.1 h

theorem canon_entry_transfer (files files1 : List DuplicateFile)
    (hsz : equalSizes files) (hperm : List.Perm files files1)
    (E : List String × List (String × List DuplicateFile))
    (hE : E ∈ folderRel files) :
    ∃ E1 ∈ folderRel files1,
      canonGroup (mkGroup E1.1 E1.2) = canonGroup (mkGroup E.1 E.2) := by
  obtain ⟨e0, he0⟩ : ∃ e, e ∈ E.2 := by
    cases h2 : E.2 with
    | nil => exact absurd h2 (entries_ne_nil_folderRel files E hE)
    | cons a t => exact ⟨a, by simp⟩
  have hf0 := inner_entry_facts files E hE e0 he0
  have hclp : ∀ g, List.Perm (clusterOf files g) (clusterOf files1 g) :=
    fun g => hperm.filter _
  have hcf_mem : ∀ g x, x ∈ clusterFolders (clusterOf files g) ↔
      x ∈ clusterFolders (clusterOf files1 g) := by
    intro g x
    rw [clusterFolders, clusterFolders, mem_firstDedup, mem_firstDedup]
    exact ((hclp g).map _).mem_iff
  have hcf_perm : ∀ g, List.Perm (clusterFolders (clusterOf files g))
      (clusterFolders (clusterOf files1 g)) := fun g =>
    List.perm_of_nodup_nodup_toFinset_eq (nodup_firstDedup _)
      (nodup_firstDedup _) (List.toFinset.ext (hcf_mem g))
  have h1len : 1 < (clusterFolders (clusterOf files1 e0.1)).length := by
    rw [← (hcf_perm e0.1).length_eq]
    have h := hf0.2.2.1; rw [hf0.1] at h; exact h
  have h1ne : clusterOf files1 e0.1 ≠ [] := by
    intro hnil
    have h3 := hf0.2.1
    rw [hf0.1] at h3
    exact h3 (List.Perm.eq_nil (hnil ▸ hclp e0.1))
  have hmem1 : (e0.1, clusterOf files1 e0.1) ∈ (groupsById files1).filter
      (fun e => decide (1 < (clusterFolders e.2).length) &&
        setEq (clusterFolders e.2) (clusterFolders (clusterOf files1 e0.1))) :=
    List.mem_filter.2 ⟨cluster_mem_groupsById files1 e0.1 h1ne,
      by simp [h1len, setEq_refl]⟩
  have hrel_ne : relV (folderRel files1)
      (clusterFolders (clusterOf files1 e0.1)) ≠ [] := by
    rw [relV_folderRel]
    intro hnil
    rw [hnil] at hmem1
    cases hmem1
  obtain ⟨E1, hE1, hsetEq1, hrelv1⟩ := relV_mem_of_ne_nil _ _ hrel_ne
  refine ⟨E1, hE1, ?_⟩
  have hE1mem : ∀ x, x ∈ E.1 ↔ x ∈ E1.1 := by
    intro x
    have ha : setEq (clusterFolders (clusterOf files e0.1)) E.1 = true := by
      have h := hf0.2.2.2; rw [hf0.1] at h; exact h
    have hiff1 := (setEq_iff _ _).1 ha x
    have hiff2 := (setEq_iff _ _).1 hsetEq1 x
    rw [← hiff1, hcf_mem e0.1 x, ← hiff2]
  have hkeys_iff : ∀ g, g ∈ keysOf E.2 ↔ g ∈ keysOf E1.2 := by
    intro g
    rw [mem_keys_entry_iff files E hE g, mem_keys_entry_iff files1 E1 hE1 g]
    constructor
    · rintro ⟨h1, h2, h3⟩
      refine ⟨?_, ?_, ?_⟩
      · intro hnil; exact h1 (List.Perm.eq_nil (hnil ▸ hclp g))
      · rw [← (hcf_perm g).length_eq]; exact h2
      · rw [setEq_iff]
        intro x
        exact ((hcf_mem g x).symm.trans ((setEq_iff _ _).1 h3 x)).trans
          (hE1mem x)
    · rintro ⟨h1, h2, h3⟩
      refine ⟨?_, ?_, ?_⟩
      · intro hnil; exact h1 ((hnil ▸ hclp g).symm.eq_nil)
      · rw [(hcf_perm g).length_eq]; exact h2
      · rw [setEq_iff]
        intro x
        exact ((hcf_mem g x).trans ((setEq_iff _ _).1 h3 x)).trans
          (hE1mem x).symm
  have hLperm : List.Perm (E.2.map Prod.fst) (E1.2.map Prod.fst) :=
    List.perm_of_nodup_nodup_toFinset_eq (keys_nodup_entry files E hE)
      (keys_nodup_entry files1 E1 hE1) (List.toFinset.ext hkeys_iff)
  have hfolders : (↑E1.1 : Multiset String) = ↑E.1 := by
    rw [Multiset.coe_eq_coe]
    refine List.perm_of_nodup_nodup_toFinset_eq ?_ ?_
      (List.toFinset.ext (fun x => (hE1mem x).symm))
    · exact outerKey_nodup_folderRel files1 E1.1
        (List.mem_map_of_mem Prod.fst hE1)
    · exact outerKey_nodup_folderRel files E.1
        (List.mem_map_of_mem Prod.fst hE)
  have htot : (E1.2.map (fun e => headSize e.2)).sum =
      (E.2.map (fun e => headSize e.2)).sum := by
    rw [entry_map_eq files1 E1 hE1 (fun e => headSize e.2),
      entry_map_eq files E hE (fun e => headSize e.2)]
    have hstep : (E.2.map Prod.fst).map
          (fun g => headSize (clusterOf files g)) =
        (E.2.map Prod.fst).map (fun g => headSize (clusterOf files1 g)) :=
      List.map_congr_left (fun g _ =>
        headSize_perm_eq _ _ (hclp g) (sizes_eq_in_cluster files hsz g))
    refine (List.Perm.sum_eq (List.Perm.map _ hLperm.symm)).trans ?_
    rw [← hstep]
  have hwaste : (E1.2.map (fun e => headSize e.2 * (e.2.length - 1))).sum =
      (E.2.map (fun e => headSize e.2 * (e.2.length - 1))).sum := by
    rw [entry_map_eq files1 E1 hE1
        (fun e => headSize e.2 * (e.2.length - 1)),
      entry_map_eq files E hE (fun e => headSize e.2 * (e.2.length - 1))]
    have hstep : (E.2.map Prod.fst).map
          (fun g => headSize (clusterOf files g) *
            ((clusterOf files g).length - 1)) =
        (E.2.map Prod.fst).map
          (fun g => headSize (clusterOf files1 g) *
            ((clusterOf files1 g).length - 1)) :=
      List.map_congr_left (fun g _ => by
        rw [headSize_perm_eq _ _ (hclp g) (sizes_eq_in_cluster files hsz g),
          (hclp g).length_eq])
    refine (List.Perm.sum_eq (List.Perm.map _ hLperm.symm)).trans ?_
    rw [← hstep]
  have hsf : (↑(E1.2.map (fun e => (e.1, (↑e.2 : Multiset DuplicateFile)))) :
      Multiset (String × Multiset DuplicateFile)) =
      ↑(E.2.map (fun e => (e.1, (↑e.2 : Multiset DuplicateFile)))) := by
    rw [Multiset.coe_eq_coe]
    rw [entry_map_eq files1 E1 hE1
        (fun e => (e.1, (↑e.2 : Multiset DuplicateFile))),
      entry_map_eq files E hE
        (fun e => (e.1, (↑e.2 : Multiset DuplicateFile)))]
    have hstep : (E.2.map Prod.fst).map
          (fun g => (g, (↑(clusterOf files g) : Multiset DuplicateFile))) =
        (E.2.map Prod.fst).map
          (fun g => (g, (↑(clusterOf files1 g) : Multiset DuplicateFile))) :=
      List.map_congr_left (fun g _ => by
        rw [Multiset.coe_eq_coe.2 (hclp g)])
    refine (List.Perm.map _ hLperm.symm).trans ?_
    rw [← hstep]
  exact Prod.ext hfolders (Prod.ext htot (Prod.ext hwaste hsf))

theorem folderRel_canon_perm (files files1 : List DuplicateFile)
    (hsz : equalSizes files) (hperm : List.Perm files files1) :
    List.Perm ((folderRel files).map (fun E => canonGroup (mkGroup E.1 E.2)))
      ((folderRel files1).map (fun E => canonGroup (mkGroup E.1 E.2))) := by
  have hne : ∀ E E1 : List String × List (String × List DuplicateFile),
      setEq E.1 E1.1 = false →
      canonGroup (mkGroup E.1 E.2) ≠ canonGroup (mkGroup E1.1 E1.2) := by
    intro E E1 hne heq
    have h1 : (↑E.1 : Multiset String) = ↑E1.1 := congrArg Prod.fst heq
    have h2 := Multiset.coe_eq_coe.1 h1
    have h3 : setEq E.1 E1.1 = true := (setEq_iff _ _).2 (fun x => h2.mem_iff)
    rw [hne] at h3
    cases h3
  have hnd : ∀ fs : List DuplicateFile,
      ((folderRel fs).map (fun E => canonGroup (mkGroup E.1 E.2))).Nodup :=
    fun fs => List.pairwise_map.2
      ((pairwise_entries_folderRel fs).imp (fun h => hne _ _ h))
  refine List.perm_of_nodup_nodup_toFinset_eq (hnd files) (hnd files1)
    (List.toFinset.ext ?_)
  intro x
  simp only [List.mem_map]
  constructor
  · rintro ⟨E, hE, rfl⟩
    obtain ⟨E1, hE1, heq⟩ := canon_entry_transfer files files1 hsz hperm E hE
    exact ⟨E1, hE1, heq⟩
  · rintro ⟨E1, hE1, rfl⟩
    obtain ⟨E, hEx, heq⟩ := canon_entry_transfer files1 files
      (equalSizes_perm files files1 hsz hperm) hperm.symm E1 hE1
    exact ⟨E, hEx, heq⟩

/-- C10 is false as stated: without the equal-size invariant, reversing the
input changes which record is first in a cluster, and `total_shared_size`
(computed from `group_files[0].size`) changes with it. -/
theorem analyze_not_perm_invariant :
    List.Perm sizesFilesA sizesFilesB ∧
      ¬ (Multiset.ofList ((analyze_folder_groups 0 sizesFilesA).map canonGroup) =
         Multiset.ofList ((analyze_folder_groups 0 sizesFilesB).map canonGroup)) := by
  constructor <;> decide

/-- C10 (amended): under the upstream equal-size-per-groupID invariant,
`analyze_folder_groups` is permutation-invariant up to incidental order: the
outputs of any two permutations of the input agree as multisets of groups,
each group taken as (folder multiset, `total_shared_size`, `wasted_space`,
multiset of per-group-ID record multisets). -/
theorem analyze_perm_invariant (m : Nat) (files files1 : List DuplicateFile)
    (hsz : equalSizes files) (hperm : List.Perm files files1) :
    Multiset.ofList ((analyze_folder_groups m files).map canonGroup) =
      Multiset.ofList ((analyze_folder_groups m files1).map canonGroup) := by
  rw [Multiset.coe_eq_coe]
  have hsort : ∀ fs : List DuplicateFile,
      List.Perm ((analyze_folder_groups m fs).map canonGroup)
        ((((folderRel fs).map (fun e => mkGroup e.1 e.2)).filter
          (fun g => decide (m ≤ g.total_shared_size))).map canonGroup) :=
    fun fs => List.Perm.map canonGroup (List.perm_insertionSort byTotalDesc _)
  refine (hsort files).trans (List.Perm.trans ?_ (hsort files1).symm)
  have hfa : ∀ fs : List DuplicateFile,
      (((folderRel fs).map (fun e => mkGroup e.1 e.2)).filter
          (fun g => decide (m ≤ g.total_shared_size))).map canonGroup =
        ((((folderRel fs).map (fun e => mkGroup e.1 e.2)).map canonGroup).filter
          (fun x => decide (m ≤ x.2.1))) :=
    fun fs => map_filter_eq _ canonGroup (fun x => decide (m ≤ x.2.1))
  rw [hfa files, hfa files1, List.map_map, List.map_map]
  exact List.Perm.filter _ (folderRel_canon_perm files files1 hsz hperm)

theorem analyze_perm_invariant_witness :
    Multiset.ofList ((analyze_folder_groups 0 exampleFiles).map canonGroup) =
      Multiset.ofList
        ((analyze_folder_groups 0 exampleFiles.reverse).map canonGroup) :=
  analyze_perm_invariant 0 exampleFiles exampleFiles.reverse (by decide)
    (by decide)
